import Mathlib

/-!
# Verification of `uptime-history` (src/main.go)

Shallow embedding of the event-extraction, normalization, session-reconstruction
and summary code of `main.go`, together with proofs of the specified properties.

Modelling conventions:
* `time.Time` instants and `time.Duration` values are modelled as `Int`,
  measured in seconds.  Consequently `2 * time.Minute` is `120` and
  `1 * time.Minute` is `60`.
* `time.Now()` is threaded through as an explicit `now : Int` parameter.
* Go slices become `List`s; loops that append to a slice become either
  accumulator-passing recursion (mirroring the loop) or structural recursion
  producing the same list.
-/

/-- `Event` from src/main.go:14-17.  `Type` is one of
`"boot"`, `"shutdown"`, `"suspend"`, `"hibernate"`, `"resume"` when produced by
the extractor, but the field is a plain string exactly as in the source. -/
structure Event where
  Timestamp : Int
  «Type» : String
deriving DecidableEq

/-- `Session` from src/main.go:19-24. -/
structure Session where
  Start : Int
  End : Int
  Duration : Int
  «Type» : String
deriving DecidableEq

/-! ## Event normalization (sort + deduplicate), src/main.go:133-141 and 256-277 -/

/-- The body of the `for i := 1; ...` loop of `deduplicateEvents`
(src/main.go:263-274): `result` is the slice built so far (always non-empty
when entered from `deduplicateEvents`), and the remaining input events are
consumed one at a time, comparing each against `result`'s last element.
The `none` branch of `getLast?` is unreachable from `deduplicateEvents`. -/
def dedupLoop (result : List Event) : List Event → List Event
  | [] => result
  | currentEvent :: rest =>
    match result.getLast? with
    | some lastEvent =>
      if currentEvent.«Type» = lastEvent.«Type» ∧
          currentEvent.Timestamp - lastEvent.Timestamp < 120 then
        dedupLoop result rest
      else
        dedupLoop (result ++ [currentEvent]) rest
    | none => dedupLoop (result ++ [currentEvent]) rest

/-- `deduplicateEvents` (src/main.go:256-277): keep the first event, then run
the scan of `dedupLoop` over the remaining ones. -/
def deduplicateEvents (events : List Event) : List Event :=
  match events with
  | [] => events
  | e :: rest => dedupLoop [e] rest

/-- Structural form of the dedup scan: given the most recently *retained*
event, drop the next event iff it has the same kind and its timestamp is less
than 2 minutes after the retained one (the source's condition
`currentEvent.Timestamp.Sub(lastEvent.Timestamp) < 2*time.Minute`). -/
def dedupFrom (lastEvent : Event) : List Event → List Event
  | [] => []
  | e :: es =>
    if e.«Type» = lastEvent.«Type» ∧ e.Timestamp - lastEvent.Timestamp < 120 then
      dedupFrom lastEvent es
    else
      e :: dedupFrom e es

/-- The dedup scan as claim C5 words it: `within 2 minutes` read as absolute
time distance below 2 minutes (in both directions).  Used to compare the
spec's wording with the source's signed condition. -/
def dedupFromWithin (lastEvent : Event) : List Event → List Event
  | [] => []
  | e :: es =>
    if e.«Type» = lastEvent.«Type» ∧
        (e.Timestamp - lastEvent.Timestamp < 120 ∧
         lastEvent.Timestamp - e.Timestamp < 120) then
      dedupFromWithin lastEvent es
    else
      e :: dedupFromWithin e es

/-- Insert an event into a list sorted by timestamp. -/
def insertEvent (e : Event) : List Event → List Event
  | [] => [e]
  | x :: xs =>
    if e.Timestamp ≤ x.Timestamp then e :: x :: xs else x :: insertEvent e xs

/-- The `sort.Slice` call of src/main.go:134-136, which orders the events so
that timestamps are non-decreasing; modelled as insertion sort (the source's
comparison sort is unstable, and no claim depends on the order of ties). -/
def sortEvents : List Event → List Event
  | [] => []
  | e :: es => insertEvent e (sortEvents es)

/-- Lines 133-141 of src/main.go: sort chronologically, then remove
duplicates. -/
def normalizeEvents (events : List Event) : List Event :=
  deduplicateEvents (sortEvents events)

/-! ## Session reconstruction, src/main.go:279-344 -/

/-- The event-consuming loop of `calculateSessions` (src/main.go:285-341),
with the mutable state (`sessionStart *Event`, `sessionType string`) made
explicit, plus the final "still active" emission for a session left open when
the input is exhausted (src/main.go:332-341). -/
def calcLoop (now : Int) (sessionStart : Option Event) (sessionType : String) :
    List Event → List Session
  | [] =>
    match sessionStart with
    | some s =>
      [{ Start := s.Timestamp, End := now, Duration := now - s.Timestamp,
         «Type» := sessionType ++ " → (still active)" }]
    | none => []
  | event :: rest =>
    if event.«Type» = "boot" ∨ event.«Type» = "resume" then
      match sessionStart with
      | some s =>
        { Start := s.Timestamp, End := event.Timestamp,
          Duration := event.Timestamp - s.Timestamp,
          «Type» := sessionType ++ " → " ++ event.«Type» } ::
          calcLoop now (some event)
            (if event.«Type» = "boot" then "boot" else "resume") rest
      | none =>
        calcLoop now (some event)
          (if event.«Type» = "boot" then "boot" else "resume") rest
    else if event.«Type» = "shutdown" ∨ event.«Type» = "suspend" ∨
        event.«Type» = "hibernate" then
      match sessionStart with
      | some s =>
        { Start := s.Timestamp, End := event.Timestamp,
          Duration := event.Timestamp - s.Timestamp,
          «Type» := sessionType ++ " → " ++
            (if event.«Type» = "shutdown" then "shutdown"
             else if event.«Type» = "suspend" then "suspend"
             else if event.«Type» = "hibernate" then "hibernate" else "") } ::
          calcLoop now none "" rest
      | none => calcLoop now none sessionType rest
    else
      calcLoop now sessionStart sessionType rest

/-- `calculateSessions` (src/main.go:279-344): run the loop from the initial
closed state (`sessionStart = nil`, `sessionType = ""`). -/
def calculateSessions (now : Int) (events : List Event) : List Session :=
  calcLoop now none "" events

/-- The state evolution of the `calculateSessions` loop, without the emitted
sessions: what `(sessionStart, sessionType)` holds after consuming the
events. -/
def loopState (sessionStart : Option Event) (sessionType : String) :
    List Event → Option Event × String
  | [] => (sessionStart, sessionType)
  | event :: rest =>
    if event.«Type» = "boot" ∨ event.«Type» = "resume" then
      loopState (some event)
        (if event.«Type» = "boot" then "boot" else "resume") rest
    else if event.«Type» = "shutdown" ∨ event.«Type» = "suspend" ∨
        event.«Type» = "hibernate" then
      match sessionStart with
      | some _ => loopState none "" rest
      | none => loopState none sessionType rest
    else
      loopState sessionStart sessionType rest

/-- `s` ends with `pat`, computed on the underlying character lists (the
string-level `endsWith` does not reduce inside the kernel). -/
def strEndsWith (s pat : String) : Bool :=
  pat.data.isSuffixOf s.data

/-- A session carrying the `"(still active)"` label. -/
def hasStillActive (s : Session) : Bool :=
  strEndsWith s.«Type» "(still active)"

/-- A session emitted by the anomaly branch (two consecutive openers): its
label names an opener kind on the right of the arrow. -/
def isAnomaly (s : Session) : Bool :=
  strEndsWith s.«Type» "→ boot" || strEndsWith s.«Type» "→ resume"

/-! ## Summary aggregation, src/main.go:363-404 -/

/-- The aggregate values computed by `displaySummary`. -/
structure SummaryStats where
  count : Nat
  totalDuration : Int
  avgDuration : Int
  longest : Session
  shortest : Session
deriving DecidableEq

/-- The `for _, session := range sessions[1:]` scan picking the longest
session (src/main.go:386-389): starting from the first session, a later one
replaces the candidate only on strictly greater duration. -/
def pickLongest (first : Session) (rest : List Session) : Session :=
  rest.foldl (fun longest session =>
    if session.Duration > longest.Duration then session else longest) first

/-- The scan picking the shortest session (src/main.go:386-393): replace only
on strictly smaller duration. -/
def pickShortest (first : Session) (rest : List Session) : Session :=
  rest.foldl (fun shortest session =>
    if session.Duration < shortest.Duration then session else shortest) first

/-- `displaySummary` (src/main.go:363-404), restricted to the values it
computes (console printing is out of scope): total duration summed over all
sessions, average as Go's truncating integer division (`Int.tdiv`) of total by
count, and the longest/shortest scans seeded with the first session. -/
def displaySummary (sessions : List Session) : Option SummaryStats :=
  match sessions with
  | [] => none
  | first :: rest =>
    some { count := (first :: rest).length,
           totalDuration := (first :: rest).foldl (fun acc s => acc + s.Duration) 0,
           avgDuration := Int.tdiv
             ((first :: rest).foldl (fun acc s => acc + s.Duration) 0)
             ((first :: rest).length : Int),
           longest := pickLongest first rest,
           shortest := pickShortest first rest }

/-! ## Boot-listing extraction, src/main.go:72-127 -/

/-- RE2 `\w` (default flags): ASCII letters, digits and underscore. -/
def isWordChar (c : Char) : Bool :=
  c.isAlphanum || c = '_'

/-- Try the date pattern `\w{3} \d{4}-\d{2}-\d{2} \d{2}:\d{2}:\d{2} \w+` of
src/main.go:86 at the start of `cs`; on success return the matched characters
(with the trailing `\w+` taken greedily) and the remainder. -/
def matchDateAt : List Char → Option (List Char × List Char)
  | w1 :: w2 :: w3 :: ' ' :: y1 :: y2 :: y3 :: y4 :: '-' :: mo1 :: mo2 :: '-' ::
      dy1 :: dy2 :: ' ' :: hh1 :: hh2 :: ':' :: mi1 :: mi2 :: ':' :: sc1 :: sc2 ::
      ' ' :: rest =>
    if isWordChar w1 && isWordChar w2 && isWordChar w3 &&
        y1.isDigit && y2.isDigit && y3.isDigit && y4.isDigit &&
        mo1.isDigit && mo2.isDigit && dy1.isDigit && dy2.isDigit &&
        hh1.isDigit && hh2.isDigit && mi1.isDigit && mi2.isDigit &&
        sc1.isDigit && sc2.isDigit then
      let (ws, rest2) := rest.span isWordChar
      if ws.isEmpty then none
      else
        some (w1 :: w2 :: w3 :: ' ' :: y1 :: y2 :: y3 :: y4 :: '-' :: mo1 :: mo2 ::
          '-' :: dy1 :: dy2 :: ' ' :: hh1 :: hh2 :: ':' :: mi1 :: mi2 :: ':' ::
          sc1 :: sc2 :: ' ' :: ws, rest2)
    else none
  | _ => none

/-- `dateRegex.FindAllString(line, -1)`: scan left to right for the leftmost
match, emit it, and resume after its end.  `fuel` bounds the recursion; every
step consumes at least one character, so `fuel = cs.length` is exact. -/
def findDatesAux : Nat → List Char → List String
  | _, [] => []
  | 0, _ :: _ => []
  | fuel + 1, c :: cs =>
    match matchDateAt (c :: cs) with
    | some (m, r) => String.mk m :: findDatesAux fuel r
    | none => findDatesAux fuel cs

/-- All date phrases found in `line` (src/main.go:86-87). -/
def findDates (line : String) : List String :=
  findDatesAux line.data.length line.data

/-- Split off the longest space-free prefix: `(prefix-part, rest)` where
`rest` is empty or starts with the first `' '` of the input. -/
def breakAtSpace : List Char → List Char × List Char
  | [] => ([], [])
  | c :: cs =>
    if c = ' ' then ([], c :: cs)
    else
      let (f, r) := breakAtSpace cs
      (c :: f, r)

/-- Go `strings.SplitN(s, " ", n)` on character lists: up to `n` fields split
at single spaces, the last field keeping the remainder unsplit. -/
def splitN : Nat → List Char → List (List Char)
  | 0, _ => []
  | 1, cs => [cs]
  | n + 2, cs =>
    match breakAtSpace cs with
    | (f, []) => [f]
    | (f, _ :: r) => f :: splitN (n + 1) r

/-- One iteration of the boot-listing loop of `getSystemEvents`
(src/main.go:72-127): skip the line unless `SplitN(line, " ", 3)` yields three
parts, find the embedded date phrases, require at least two, parse the first
two, emit a Boot event at the start instant and a Shutdown event at the end
instant only when that end lies more than one minute before `now`
(`endTime.Before(time.Now().Add(-1 * time.Minute))`).  `parse` stands for
`time.Parse("Mon 2006-01-02 15:04:05 MST", ·)`, returning the parsed instant
or failing. -/
def processBootLine (parse : String → Option Int) (now : Int) (line : String) :
    List Event :=
  let parts := splitN 3 line.data
  if parts.length < 3 then []
  else
    match findDates line with
    | d0 :: d1 :: _ =>
      match parse d0 with
      | none => []
      | some startTime =>
        match parse d1 with
        | none => []
        | some endTime =>
          { Timestamp := startTime, «Type» := "boot" } ::
            (if endTime < now - 60 then
              [{ Timestamp := endTime, «Type» := "shutdown" }]
            else [])
    | _ => []

/-! ## Concrete evaluations (smoke tests) -/

example : calculateSessions 100 [⟨0, "boot"⟩, ⟨5, "resume"⟩] =
    [⟨0, 5, 5, "boot → resume"⟩, ⟨5, 100, 95, "resume → (still active)"⟩] := by
  decide

example : deduplicateEvents [⟨0, "boot"⟩, ⟨30, "boot"⟩, ⟨200, "boot"⟩] =
    [⟨0, "boot"⟩, ⟨200, "boot"⟩] := by decide

example : hasStillActive ⟨5, 100, 95, "resume → (still active)"⟩ = true := by
  decide

example : isAnomaly ⟨0, 5, 5, "boot → resume"⟩ = true := by decide

example : isAnomaly ⟨0, 5, 5, "boot → suspend"⟩ = false := by decide

example : findDates "-1 abc123def Mon 2025-01-01 08:00:00 UTC Mon 2025-01-01 18:00:00 UTC" =
    ["Mon 2025-01-01 08:00:00 UTC", "Mon 2025-01-01 18:00:00 UTC"] := by decide

/-! ## Deduplication: refinement of the imperative loop and claims C4-C6 -/

theorem dedupLoop_eq (rest : List Event) : ∀ (acc : List Event) (last : Event),
    dedupLoop (acc ++ [last]) rest = acc ++ last :: dedupFrom last rest := by
  induction rest with
  | nil => intro acc last; simp [dedupLoop, dedupFrom]
  | cons e es ih =>
    intro acc last
    simp only [dedupLoop, dedupFrom, List.getLast?_concat]
    by_cases h : e.«Type» = last.«Type» ∧ e.Timestamp - last.Timestamp < 120
    · simp [h, ih]
    · simp only [if_neg h]
      have h2 := ih (acc ++ [last]) e
      simpa [List.append_assoc] using h2

theorem deduplicateEvents_cons (e : Event) (rest : List Event) :
    deduplicateEvents (e :: rest) = e :: dedupFrom e rest := by
  have h := dedupLoop_eq rest [] e
  simpa [deduplicateEvents] using h

theorem dedupFrom_chain : ∀ (l : List Event) (last : Event),
    List.Chain (fun a b => ¬(b.«Type» = a.«Type» ∧ b.Timestamp - a.Timestamp < 120))
      last (dedupFrom last l) := by
  intro l
  induction l with
  | nil => intro last; simp [dedupFrom]
  | cons e es ih =>
    intro last
    by_cases h : e.«Type» = last.«Type» ∧ e.Timestamp - last.Timestamp < 120
    · simpa [dedupFrom, h] using ih last
    · simp only [dedupFrom, if_neg h]
      exact List.Chain.cons h (ih e)

theorem dedupFrom_of_chain : ∀ (l : List Event) (last : Event),
    List.Chain (fun a b => ¬(b.«Type» = a.«Type» ∧ b.Timestamp - a.Timestamp < 120))
      last l → dedupFrom last l = l := by
  intro l
  induction l with
  | nil => intro last _; rfl
  | cons e es ih =>
    intro last hch
    rcases List.chain_cons.mp hch with ⟨h1, h2⟩
    simp [dedupFrom, if_neg h1, ih e h2]

theorem dedupFrom_sublist : ∀ (l : List Event) (last : Event),
    List.Sublist (dedupFrom last l) l := by
  intro l
  induction l with
  | nil => intro last; simp [dedupFrom]
  | cons e es ih =>
    intro last
    by_cases h : e.«Type» = last.«Type» ∧ e.Timestamp - last.Timestamp < 120
    · simp only [dedupFrom, if_pos h]
      exact (ih last).cons e
    · simp only [dedupFrom, if_neg h]
      exact (ih e).cons₂ e

theorem deduplicateEvents_sublist (events : List Event) :
    List.Sublist (deduplicateEvents events) events := by
  cases events with
  | nil => simp [deduplicateEvents]
  | cons e rest =>
    rw [deduplicateEvents_cons]
    exact (dedupFrom_sublist rest e).cons₂ e

theorem mem_insertEvent {x e : Event} : ∀ {l : List Event},
    x ∈ insertEvent e l → x = e ∨ x ∈ l := by
  intro l
  induction l with
  | nil => intro h; simpa [insertEvent] using h
  | cons y ys ih =>
    intro h
    by_cases hc : e.Timestamp ≤ y.Timestamp
    · simp only [insertEvent, if_pos hc] at h
      rcases List.mem_cons.mp h with rfl | h2
      · exact Or.inl rfl
      · exact Or.inr h2
    · simp only [insertEvent, if_neg hc] at h
      rcases List.mem_cons.mp h with rfl | h2
      · exact Or.inr (List.mem_cons_self _ _)
      · rcases ih h2 with h3 | h3
        · exact Or.inl h3
        · exact Or.inr (List.mem_cons_of_mem _ h3)

theorem insertEvent_pairwise {e : Event} : ∀ {l : List Event},
    l.Pairwise (fun a b => a.Timestamp ≤ b.Timestamp) →
    (insertEvent e l).Pairwise (fun a b => a.Timestamp ≤ b.Timestamp) := by
  intro l
  induction l with
  | nil => intro _; simp [insertEvent]
  | cons x xs ih =>
    intro hp
    rcases List.pairwise_cons.mp hp with ⟨hx, hxs⟩
    by_cases h : e.Timestamp ≤ x.Timestamp
    · simp only [insertEvent, if_pos h]
      refine List.pairwise_cons.mpr ⟨?_, hp⟩
      intro b hb
      rcases List.mem_cons.mp hb with rfl | hb2
      · exact h
      · exact h.trans (hx b hb2)
    · simp only [insertEvent, if_neg h]
      refine List.pairwise_cons.mpr ⟨?_, ih hxs⟩
      intro b hb
      rcases mem_insertEvent hb with rfl | hb2
      · exact le_of_not_le h
      · exact hx b hb2

theorem sortEvents_pairwise : ∀ (l : List Event),
    (sortEvents l).Pairwise (fun a b => a.Timestamp ≤ b.Timestamp) := by
  intro l
  induction l with
  | nil => simp [sortEvents]
  | cons e es ih =>
    simp only [sortEvents]
    exact insertEvent_pairwise ih

/-- C4: the normalized event list (sort, then deduplicate) is non-decreasing
by timestamp: every element's timestamp is at most its successor's. -/
theorem claim_C4 (events : List Event) :
    List.Chain' (fun a b => a.Timestamp ≤ b.Timestamp) (normalizeEvents events) :=
  ((sortEvents_pairwise events).sublist
    (deduplicateEvents_sublist (sortEvents events))).chain'

/-- C5 counterexample: on the (unsorted) list `[boot@1000, boot@0]` the code
drops the second event, whose timestamp is 1000 seconds away from the retained
event — not within 2 minutes of it.  So `deduplicateEvents` differs from the
scan described by the claim (`dedupFromWithin`, which reads `within 2 minutes`
as absolute distance below 2 minutes). -/
theorem claim_C5_counterexample :
    deduplicateEvents [⟨1000, "boot"⟩, ⟨0, "boot"⟩] ≠
      (⟨1000, "boot"⟩ : Event) :: dedupFromWithin ⟨1000, "boot"⟩ [⟨0, "boot"⟩] := by
  decide

/-- C5 (amended): deduplication retains the first event unconditionally, and
scanning left to right drops an event iff its kind equals the kind of the
immediately preceding retained event and its timestamp is less than 2 minutes
*after* that retained event's timestamp (signed difference; for
timestamp-sorted input this coincides with being within 2 minutes of it); all
other events are retained in order.  `dedupFrom` is exactly that scan. -/
theorem claim_C5 (e : Event) (es : List Event) :
    deduplicateEvents [] = [] ∧ deduplicateEvents (e :: es) = e :: dedupFrom e es :=
  ⟨rfl, deduplicateEvents_cons e es⟩

/-- C6: deduplication is idempotent — applying it to its own output returns
that output unchanged. -/
theorem claim_C6 (events : List Event) :
    deduplicateEvents (deduplicateEvents events) = deduplicateEvents events := by
  cases events with
  | nil => rfl
  | cons e rest =>
    rw [deduplicateEvents_cons, deduplicateEvents_cons,
      dedupFrom_of_chain _ _ (dedupFrom_chain rest e)]

/-! ## Session reconstruction transitions: claims C1 and C2 -/

/-- C1: in the open state, a `boot`/`resume` event makes the reconstructor
emit an anomaly session from the recorded open timestamp to the event's
timestamp, labelled `openKind → newKind`, and re-open with the event's
timestamp and kind; in the closed state it just opens with the event's
timestamp and kind, emitting nothing. -/
theorem claim_C1 (now : Int) (s e : Event) (sk : String) (es : List Event)
    (h : e.«Type» = "boot" ∨ e.«Type» = "resume") :
    calcLoop now (some s) sk (e :: es) =
      { Start := s.Timestamp, End := e.Timestamp,
        Duration := e.Timestamp - s.Timestamp,
        «Type» := sk ++ " → " ++ e.«Type» } ::
        calcLoop now (some e) e.«Type» es
    ∧ calcLoop now none sk (e :: es) = calcLoop now (some e) e.«Type» es := by
  rcases h with h | h <;> constructor <;> simp [calcLoop, h]

theorem claim_C1_witness :
    calcLoop 100 (some ⟨0, "boot"⟩) "boot" [⟨5, "resume"⟩] =
      (⟨0, 5, 5, "boot → resume"⟩ : Session) ::
        calcLoop 100 (some ⟨5, "resume"⟩) "resume" []
    ∧ calcLoop 100 none "boot" [⟨5, "resume"⟩] =
        calcLoop 100 (some ⟨5, "resume"⟩) "resume" [] := by
  have h := claim_C1 100 ⟨0, "boot"⟩ ⟨5, "resume"⟩ "boot" [] (Or.inr rfl)
  exact h

/-- C2: in the open state, a `shutdown`/`suspend`/`hibernate` event makes the
reconstructor emit exactly one session from the open timestamp to the event's
timestamp, labelled `openKind → closerKind`, and become closed; in the closed
state such an event emits nothing and leaves the state unchanged. -/
theorem claim_C2 (now : Int) (e : Event) (es : List Event)
    (h : e.«Type» = "shutdown" ∨ e.«Type» = "suspend" ∨ e.«Type» = "hibernate") :
    (∀ (s : Event) (sk : String), calcLoop now (some s) sk (e :: es) =
      { Start := s.Timestamp, End := e.Timestamp,
        Duration := e.Timestamp - s.Timestamp,
        «Type» := sk ++ " → " ++ e.«Type» } :: calcLoop now none "" es)
    ∧ (∀ sk : String, calcLoop now none sk (e :: es) = calcLoop now none sk es) := by
  rcases h with h | h | h <;>
    refine ⟨fun s sk => ?_, fun sk => ?_⟩ <;> simp [calcLoop, h]

theorem claim_C2_witness :
    calcLoop 100 (some ⟨0, "boot"⟩) "boot" [⟨7, "suspend"⟩] =
      (⟨0, 7, 7, "boot → suspend"⟩ : Session) :: calcLoop 100 none "" []
    ∧ calcLoop 100 none "" [⟨7, "suspend"⟩] = calcLoop 100 none "" [] := by
  have h := claim_C2 100 ⟨7, "suspend"⟩ [] (Or.inr (Or.inl rfl))
  exact ⟨h.1 ⟨0, "boot"⟩ "boot", h.2 ""⟩

/-! ## Step equations for the reconstruction loop -/

theorem calcLoop_opener_some (now : Int) (s : Event) (sk : String) (event : Event)
    (rest : List Event) (h : event.«Type» = "boot" ∨ event.«Type» = "resume") :
    calcLoop now (some s) sk (event :: rest) =
      { Start := s.Timestamp, End := event.Timestamp,
        Duration := event.Timestamp - s.Timestamp,
        «Type» := sk ++ " → " ++ event.«Type» } ::
        calcLoop now (some event) event.«Type» rest := by
  rcases h with h | h <;> simp [calcLoop, h]

theorem calcLoop_opener_none (now : Int) (sk : String) (event : Event)
    (rest : List Event) (h : event.«Type» = "boot" ∨ event.«Type» = "resume") :
    calcLoop now none sk (event :: rest) =
      calcLoop now (some event) event.«Type» rest := by
  rcases h with h | h <;> simp [calcLoop, h]

theorem calcLoop_closer_some (now : Int) (s : Event) (sk : String) (event : Event)
    (rest : List Event)
    (h : event.«Type» = "shutdown" ∨ event.«Type» = "suspend" ∨ event.«Type» = "hibernate") :
    calcLoop now (some s) sk (event :: rest) =
      { Start := s.Timestamp, End := event.Timestamp,
        Duration := event.Timestamp - s.Timestamp,
        «Type» := sk ++ " → " ++ event.«Type» } ::
        calcLoop now none "" rest := by
  rcases h with h | h | h <;> simp [calcLoop, h]

theorem calcLoop_closer_none (now : Int) (sk : String) (event : Event)
    (rest : List Event)
    (h : event.«Type» = "shutdown" ∨ event.«Type» = "suspend" ∨ event.«Type» = "hibernate") :
    calcLoop now none sk (event :: rest) = calcLoop now none sk rest := by
  rcases h with h | h | h <;> simp [calcLoop, h]

theorem calcLoop_other (now : Int) (ss : Option Event) (sk : String) (event : Event)
    (rest : List Event)
    (h1 : ¬(event.«Type» = "boot" ∨ event.«Type» = "resume"))
    (h2 : ¬(event.«Type» = "shutdown" ∨ event.«Type» = "suspend" ∨ event.«Type» = "hibernate")) :
    calcLoop now ss sk (event :: rest) = calcLoop now ss sk rest := by
  simp [calcLoop, h1, h2]

theorem loopState_opener (ss : Option Event) (sk : String) (event : Event)
    (rest : List Event) (h : event.«Type» = "boot" ∨ event.«Type» = "resume") :
    loopState ss sk (event :: rest) = loopState (some event) event.«Type» rest := by
  rcases h with h | h <;> simp [loopState, h]

theorem loopState_closer_some (s : Event) (sk : String) (event : Event)
    (rest : List Event)
    (h : event.«Type» = "shutdown" ∨ event.«Type» = "suspend" ∨ event.«Type» = "hibernate") :
    loopState (some s) sk (event :: rest) = loopState none "" rest := by
  rcases h with h | h | h <;> simp [loopState, h]

theorem loopState_closer_none (sk : String) (event : Event) (rest : List Event)
    (h : event.«Type» = "shutdown" ∨ event.«Type» = "suspend" ∨ event.«Type» = "hibernate") :
    loopState none sk (event :: rest) = loopState none sk rest := by
  rcases h with h | h | h <;> simp [loopState, h]

theorem loopState_other (ss : Option Event) (sk : String) (event : Event)
    (rest : List Event)
    (h1 : ¬(event.«Type» = "boot" ∨ event.«Type» = "resume"))
    (h2 : ¬(event.«Type» = "shutdown" ∨ event.«Type» = "suspend" ∨ event.«Type» = "hibernate")) :
    loopState ss sk (event :: rest) = loopState ss sk rest := by
  simp [loopState, h1, h2]

/-- Labels built by the loop from an opener kind and one of the five event
kinds never carry the still-active marker. -/
theorem label_not_stillActive {sk t : String}
    (hsk : sk = "boot" ∨ sk = "resume")
    (ht : t = "boot" ∨ t = "resume" ∨ t = "shutdown" ∨ t = "suspend" ∨ t = "hibernate")
    (a b c : Int) :
    hasStillActive ⟨a, b, c, sk ++ " → " ++ t⟩ = false := by
  rcases hsk with rfl | rfl <;> rcases ht with rfl | rfl | rfl | rfl | rfl <;> rfl

/-- Splitting view of the loop's output: if the state is closed once the input
is exhausted, no produced session carries the still-active label; if it is
still open at event `s` with kind `sk'`, the output is some still-active-free
prefix followed by exactly the one final session
`{s.Timestamp, now, sk' ++ " → (still active)"}`. -/
theorem calcLoop_split (now : Int) : ∀ (rest : List Event) (ss : Option Event) (sk : String),
    (∀ s, ss = some s → sk = "boot" ∨ sk = "resume") →
    ((loopState ss sk rest).1 = none →
        ∀ x ∈ calcLoop now ss sk rest, hasStillActive x = false)
    ∧ (∀ s, (loopState ss sk rest).1 = some s →
        ∃ l, calcLoop now ss sk rest =
            l ++ [{ Start := s.Timestamp, End := now,
                    Duration := now - s.Timestamp,
                    «Type» := (loopState ss sk rest).2 ++ " → (still active)" }]
          ∧ ∀ x ∈ l, hasStillActive x = false) := by
  intro rest
  induction rest with
  | nil =>
    intro ss sk hok
    cases ss with
    | none => simp [calcLoop, loopState]
    | some s0 =>
      constructor
      · intro hnone
        simp [loopState] at hnone
      · intro s hs
        simp only [loopState] at hs
        obtain rfl : s0 = s := Option.some.inj hs
        exact ⟨[], by simp [calcLoop, loopState], by simp⟩
  | cons event rest ih =>
    intro ss sk hok
    by_cases h1 : event.«Type» = "boot" ∨ event.«Type» = "resume"
    · have hrec := ih (some event) event.«Type» (fun _ _ => h1)
      cases ss with
      | none =>
        rw [calcLoop_opener_none now sk event rest h1, loopState_opener none sk event rest h1]
        exact hrec
      | some s0 =>
        rw [calcLoop_opener_some now s0 sk event rest h1,
          loopState_opener (some s0) sk event rest h1]
        obtain ⟨hnone, hsome⟩ := hrec
        constructor
        · intro hn x hx
          rcases List.mem_cons.mp hx with rfl | hx2
          · exact label_not_stillActive (hok s0 rfl) (h1.imp_right Or.inl) _ _ _
          · exact hnone hn x hx2
        · intro s hs
          obtain ⟨l, hl, hlf⟩ := hsome s hs
          refine ⟨_ :: l, by rw [hl]; rfl, ?_⟩
          intro x hx
          rcases List.mem_cons.mp hx with rfl | hx2
          · exact label_not_stillActive (hok s0 rfl) (h1.imp_right Or.inl) _ _ _
          · exact hlf x hx2
    · by_cases h2 : event.«Type» = "shutdown" ∨ event.«Type» = "suspend" ∨
          event.«Type» = "hibernate"
      · cases ss with
        | none =>
          rw [calcLoop_closer_none now sk event rest h2,
            loopState_closer_none sk event rest h2]
          exact ih none sk hok
        | some s0 =>
          rw [calcLoop_closer_some now s0 sk event rest h2,
            loopState_closer_some s0 sk event rest h2]
          have hrec := ih none "" (fun s hs => by cases hs)
          obtain ⟨hnone, hsome⟩ := hrec
          constructor
          · intro hn x hx
            rcases List.mem_cons.mp hx with rfl | hx2
            · exact label_not_stillActive (hok s0 rfl) (Or.inr (Or.inr h2)) _ _ _
            · exact hnone hn x hx2
          · intro s hs
            obtain ⟨l, hl, hlf⟩ := hsome s hs
            refine ⟨_ :: l, by rw [hl]; rfl, ?_⟩
            intro x hx
            rcases List.mem_cons.mp hx with rfl | hx2
            · exact label_not_stillActive (hok s0 rfl) (Or.inr (Or.inr h2)) _ _ _
            · exact hlf x hx2
      · rw [calcLoop_other now ss sk event rest h1 h2,
          loopState_other ss sk event rest h1 h2]
        exact ih ss sk hok

/-- C3: at most one produced session carries the `(still active)` label; if
one does, it is the last element of the output, the state was still open after
the stream was exhausted, its start is that open timestamp and its end is the
wall-clock instant `now` (not any event's timestamp). -/
theorem claim_C3 (now : Int) (events : List Event) :
    List.countP hasStillActive (calculateSessions now events) ≤ 1
    ∧ ∀ x ∈ calculateSessions now events, hasStillActive x = true →
        (calculateSessions now events).getLast? = some x
        ∧ ∃ s, (loopState none "" events).1 = some s
            ∧ x.Start = s.Timestamp ∧ x.End = now := by
  have h := calcLoop_split now events none "" (fun s hs => by cases hs)
  simp only [calculateSessions]
  cases hstate : (loopState none "" events).1 with
  | none =>
    obtain ⟨hnone, _⟩ := h
    have hall := hnone hstate
    constructor
    · have hz : List.countP hasStillActive (calcLoop now none "" events) = 0 :=
        List.countP_eq_zero.mpr (fun x hx => by simp [hall x hx])
      omega
    · intro x hx hsa
      exact absurd (hall x hx) (by simp [hsa])
  | some s =>
    obtain ⟨_, hsome⟩ := h
    obtain ⟨l, hl, hlf⟩ := hsome s hstate
    constructor
    · rw [hl, List.countP_append]
      have h0 : List.countP hasStillActive l = 0 :=
        List.countP_eq_zero.mpr (fun x hx => by simp [hlf x hx])
      have h1 : List.countP hasStillActive
          [{ Start := s.Timestamp, End := now, Duration := now - s.Timestamp,
             «Type» := (loopState none "" events).2 ++ " → (still active)" }] ≤ 1 := by
        simp only [List.countP_cons, List.countP_nil]
        split <;> omega
      omega
    · intro x hx hsa
      rw [hl] at hx
      rcases List.mem_append.mp hx with hx2 | hx2
      · exact absurd (hlf x hx2) (by simp [hsa])
      · have hfin : x = { Start := s.Timestamp, End := now,
                          Duration := now - s.Timestamp,
                          «Type» := (loopState none "" events).2 ++ " → (still active)" } := by
          simpa using hx2
        subst hfin
        exact ⟨by rw [hl]; exact List.getLast?_concat l, s, rfl, rfl, rfl⟩

theorem claim_C3_witness :
    (calculateSessions 100 [⟨0, "boot"⟩]).getLast? =
      some ⟨0, 100, 100, "boot → (still active)"⟩ := by
  have h := (claim_C3 100 [⟨0, "boot"⟩]).2
      ⟨0, 100, 100, "boot → (still active)"⟩ (by decide) (by decide)
  exact h.1

/-! ## Session bounds and ordering: claims C7 and C10 -/

theorem calcLoop_nonneg (now : Int) : ∀ (rest : List Event) (ss : Option Event) (sk : String),
    rest.Pairwise (fun a b => a.Timestamp ≤ b.Timestamp) →
    (∀ e ∈ rest, e.Timestamp ≤ now) →
    (∀ s, ss = some s → s.Timestamp ≤ now ∧ ∀ e ∈ rest, s.Timestamp ≤ e.Timestamp) →
    ∀ sess ∈ calcLoop now ss sk rest,
      sess.Start ≤ sess.End ∧ sess.Duration = sess.End - sess.Start := by
  intro rest
  induction rest with
  | nil =>
    intro ss sk _ _ hss
    cases ss with
    | none => intro sess h; simp [calcLoop] at h
    | some s0 =>
      intro sess h
      have hx : sess = ⟨s0.Timestamp, now, now - s0.Timestamp,
          sk ++ " → (still active)"⟩ := by
        simpa [calcLoop] using h
      subst hx
      exact ⟨(hss s0 rfl).1, rfl⟩
  | cons event rest ih =>
    intro ss sk hp hnow hss
    rcases List.pairwise_cons.mp hp with ⟨hev, hp'⟩
    have hnow' : ∀ e ∈ rest, e.Timestamp ≤ now :=
      fun e he => hnow e (List.mem_cons_of_mem _ he)
    have hevnow : event.Timestamp ≤ now := hnow event (List.mem_cons_self _ _)
    by_cases h1 : event.«Type» = "boot" ∨ event.«Type» = "resume"
    · cases ss with
      | none =>
        rw [calcLoop_opener_none now sk event rest h1]
        exact ih (some event) event.«Type» hp' hnow'
          (fun s hs => by injection hs with h; subst h; exact ⟨hevnow, hev⟩)
      | some s0 =>
        rw [calcLoop_opener_some now s0 sk event rest h1]
        intro sess h
        rcases List.mem_cons.mp h with rfl | h2
        · exact ⟨(hss s0 rfl).2 event (List.mem_cons_self _ _), rfl⟩
        · exact ih (some event) event.«Type» hp' hnow'
            (fun s hs => by injection hs with h; subst h; exact ⟨hevnow, hev⟩) sess h2
    · by_cases h2 : event.«Type» = "shutdown" ∨ event.«Type» = "suspend" ∨
          event.«Type» = "hibernate"
      · cases ss with
        | none =>
          rw [calcLoop_closer_none now sk event rest h2]
          exact ih none sk hp' hnow' (fun s hs => by cases hs)
        | some s0 =>
          rw [calcLoop_closer_some now s0 sk event rest h2]
          intro sess h
          rcases List.mem_cons.mp h with rfl | hm
          · exact ⟨(hss s0 rfl).2 event (List.mem_cons_self _ _), rfl⟩
          · exact ih none "" hp' hnow' (fun s hs => by cases hs) sess hm
      · rw [calcLoop_other now ss sk event rest h1 h2]
        exact ih ss sk hp' hnow'
          (fun s hs => ⟨(hss s hs).1,
            fun e he => (hss s hs).2 e (List.mem_cons_of_mem _ he)⟩)

/-- C7 counterexample: with `now = 0` and a single boot event at timestamp 10,
the reconstructor produces a still-active session whose end (0) is *before*
its start (10), so `end ≥ start` does not hold for every produced session. -/
theorem claim_C7_counterexample :
    ((⟨10, 0, -10, "boot → (still active)"⟩ : Session) ∈
        calculateSessions 0 [⟨10, "boot"⟩])
    ∧ (⟨10, 0, -10, "boot → (still active)"⟩ : Session).End <
        (⟨10, 0, -10, "boot → (still active)"⟩ : Session).Start := by
  decide

/-- C7 (amended): if the input events are non-decreasing by timestamp and
every event timestamp is at most the wall-clock instant `now`, then every
produced session — the final still-active one included — has `end ≥ start`,
and its recorded duration is `end - start` (hence non-negative). -/
theorem claim_C7 (now : Int) (events : List Event)
    (hsorted : events.Pairwise (fun a b => a.Timestamp ≤ b.Timestamp))
    (hnow : ∀ e ∈ events, e.Timestamp ≤ now) :
    ∀ sess ∈ calculateSessions now events,
      sess.Start ≤ sess.End ∧ sess.Duration = sess.End - sess.Start :=
  calcLoop_nonneg now events none "" hsorted hnow (fun s hs => by cases hs)

theorem claim_C7_witness :
    (⟨0, 5, 5, "boot → suspend"⟩ : Session).Start ≤
      (⟨0, 5, 5, "boot → suspend"⟩ : Session).End := by
  have h := claim_C7 100 [⟨0, "boot"⟩, ⟨5, "suspend"⟩] (by decide) (by decide)
  exact (h ⟨0, 5, 5, "boot → suspend"⟩ (by decide)).1

theorem calcLoop_start_lb (now : Int) : ∀ (rest : List Event) (ss : Option Event)
    (sk : String) (lb : Int),
    (∀ s, ss = some s → lb ≤ s.Timestamp) →
    (∀ e ∈ rest, lb ≤ e.Timestamp) →
    ∀ sess ∈ calcLoop now ss sk rest, lb ≤ sess.Start := by
  intro rest
  induction rest with
  | nil =>
    intro ss sk lb hss _
    cases ss with
    | none => intro sess h; simp [calcLoop] at h
    | some s0 =>
      intro sess h
      have hx : sess = ⟨s0.Timestamp, now, now - s0.Timestamp,
          sk ++ " → (still active)"⟩ := by
        simpa [calcLoop] using h
      subst hx
      exact hss s0 rfl
  | cons event rest ih =>
    intro ss sk lb hss hall
    have hall' : ∀ e ∈ rest, lb ≤ e.Timestamp :=
      fun e he => hall e (List.mem_cons_of_mem _ he)
    have hevlb : lb ≤ event.Timestamp := hall event (List.mem_cons_self _ _)
    by_cases h1 : event.«Type» = "boot" ∨ event.«Type» = "resume"
    · cases ss with
      | none =>
        rw [calcLoop_opener_none now sk event rest h1]
        exact ih (some event) event.«Type» lb
          (fun s hs => by injection hs with h; subst h; exact hevlb) hall'
      | some s0 =>
        rw [calcLoop_opener_some now s0 sk event rest h1]
        intro sess h
        rcases List.mem_cons.mp h with rfl | h2
        · exact hss s0 rfl
        · exact ih (some event) event.«Type» lb
            (fun s hs => by injection hs with h; subst h; exact hevlb) hall' sess h2
    · by_cases h2 : event.«Type» = "shutdown" ∨ event.«Type» = "suspend" ∨
          event.«Type» = "hibernate"
      · cases ss with
        | none =>
          rw [calcLoop_closer_none now sk event rest h2]
          exact ih none sk lb (fun s hs => by cases hs) hall'
        | some s0 =>
          rw [calcLoop_closer_some now s0 sk event rest h2]
          intro sess h
          rcases List.mem_cons.mp h with rfl | hm
          · exact hss s0 rfl
          · exact ih none "" lb (fun s hs => by cases hs) hall' sess hm
      · rw [calcLoop_other now ss sk event rest h1 h2]
        exact ih ss sk lb hss hall'

/-- With an open state the loop's output is never empty, and its first session
starts exactly at the open timestamp. -/
theorem calcLoop_head_start (now : Int) : ∀ (rest : List Event) (s : Event) (sk : String),
    ∃ (sess : Session) (tl : List Session),
      calcLoop now (some s) sk rest = sess :: tl ∧ sess.Start = s.Timestamp := by
  intro rest
  induction rest with
  | nil => intro s sk; exact ⟨_, [], rfl, rfl⟩
  | cons event rest ih =>
    intro s sk
    by_cases h1 : event.«Type» = "boot" ∨ event.«Type» = "resume"
    · rw [calcLoop_opener_some now s sk event rest h1]
      exact ⟨_, _, rfl, rfl⟩
    · by_cases h2 : event.«Type» = "shutdown" ∨ event.«Type» = "suspend" ∨
          event.«Type» = "hibernate"
      · rw [calcLoop_closer_some now s sk event rest h2]
        exact ⟨_, _, rfl, rfl⟩
      · rw [calcLoop_other now (some s) sk event rest h1 h2]
        exact ih s sk

/-- Sessions closed by a `shutdown`/`suspend`/`hibernate` event are not
anomaly sessions. -/
theorem label_not_anomaly_closer {sk t : String}
    (hsk : sk = "boot" ∨ sk = "resume")
    (ht : t = "shutdown" ∨ t = "suspend" ∨ t = "hibernate") (a b c : Int) :
    isAnomaly ⟨a, b, c, sk ++ " → " ++ t⟩ = false := by
  rcases hsk with rfl | rfl <;> rcases ht with rfl | rfl | rfl <;> rfl

theorem calcLoop_chain (now : Int) : ∀ (rest : List Event) (ss : Option Event) (sk : String),
    (∀ s, ss = some s → sk = "boot" ∨ sk = "resume") →
    rest.Pairwise (fun a b => a.Timestamp ≤ b.Timestamp) →
    (∀ s, ss = some s → ∀ e ∈ rest, s.Timestamp ≤ e.Timestamp) →
    List.Chain' (fun a b => a.End ≤ b.Start ∧ (isAnomaly a = true → a.End = b.Start))
      (calcLoop now ss sk rest) := by
  intro rest
  induction rest with
  | nil =>
    intro ss sk _ _ _
    cases ss with
    | none => simp [calcLoop]
    | some s0 => simp [calcLoop]
  | cons event rest ih =>
    intro ss sk hok hp hss
    rcases List.pairwise_cons.mp hp with ⟨hev, hp'⟩
    by_cases h1 : event.«Type» = "boot" ∨ event.«Type» = "resume"
    · cases ss with
      | none =>
        rw [calcLoop_opener_none now sk event rest h1]
        exact ih (some event) event.«Type» (fun _ _ => h1) hp'
          (fun s hs => by injection hs with h; subst h; exact hev)
      | some s0 =>
        rw [calcLoop_opener_some now s0 sk event rest h1, List.chain'_cons']
        constructor
        · intro b hb
          obtain ⟨sess, tl, heq, hstart⟩ := calcLoop_head_start now rest event event.«Type»
          rw [heq] at hb
          simp only [List.head?_cons, Option.mem_def, Option.some.injEq] at hb
          subst hb
          exact ⟨by simp [hstart], fun _ => by simp [hstart]⟩
        · exact ih (some event) event.«Type» (fun _ _ => h1) hp'
            (fun s hs => by injection hs with h; subst h; exact hev)
    · by_cases h2 : event.«Type» = "shutdown" ∨ event.«Type» = "suspend" ∨
          event.«Type» = "hibernate"
      · cases ss with
        | none =>
          rw [calcLoop_closer_none now sk event rest h2]
          exact ih none sk hok hp' (fun s hs => by cases hs)
        | some s0 =>
          rw [calcLoop_closer_some now s0 sk event rest h2, List.chain'_cons']
          constructor
          · intro b hb
            have hlb := calcLoop_start_lb now rest none "" event.Timestamp
              (fun s hs => by cases hs) hev
            have hbmem : b ∈ calcLoop now none "" rest := List.mem_of_mem_head? hb
            refine ⟨hlb b hbmem, ?_⟩
            intro ha
            have hfalse := label_not_anomaly_closer (hok s0 rfl) h2
              s0.Timestamp event.Timestamp (event.Timestamp - s0.Timestamp)
            simp [hfalse] at ha
          · exact ih none "" (fun s hs => by cases hs) hp' (fun s hs => by cases hs)
      · rw [calcLoop_other now ss sk event rest h1 h2]
        exact ih ss sk hok hp'
          (fun s hs e he => hss s hs e (List.mem_cons_of_mem _ he))

/-- C10: on timestamp-sorted input, the produced sessions are chronologically
ordered and non-overlapping — each session's end is at most the next one's
start — and an anomaly session's end coincides exactly with the next
session's start. -/
theorem claim_C10 (now : Int) (events : List Event)
    (hsorted : events.Pairwise (fun a b => a.Timestamp ≤ b.Timestamp)) :
    List.Chain' (fun a b => a.End ≤ b.Start ∧ (isAnomaly a = true → a.End = b.Start))
      (calculateSessions now events) :=
  calcLoop_chain now events none "" (fun s hs => by cases hs) hsorted
    (fun s hs => by cases hs)

theorem claim_C10_witness :
    List.Chain' (fun a b => a.End ≤ b.Start ∧ (isAnomaly a = true → a.End = b.Start))
      (calculateSessions 9 [⟨0, "boot"⟩, ⟨5, "resume"⟩]) :=
  claim_C10 9 [⟨0, "boot"⟩, ⟨5, "resume"⟩] (by decide)

theorem foldl_add_duration (l : List Session) : ∀ (a : Int),
    l.foldl (fun acc s => acc + s.Duration) a = a + (l.map Session.Duration).sum := by
  induction l with
  | nil => intro a; simp
  | cons x xs ih => intro a; simp [ih, add_assoc]

/-- The longest-scan returns the first session of maximal duration: the input
splits into a strictly-smaller prefix, the returned session, and a no-larger
suffix. -/
theorem pickLongest_split (rest : List Session) : ∀ (first : Session),
    ∃ l₁ l₂, first :: rest = l₁ ++ pickLongest first rest :: l₂
      ∧ (∀ x ∈ l₁, x.Duration < (pickLongest first rest).Duration)
      ∧ (∀ x ∈ l₂, x.Duration ≤ (pickLongest first rest).Duration) := by
  induction rest with
  | nil => intro first; exact ⟨[], [], rfl, by simp, by simp⟩
  | cons x xs ih =>
    intro first
    by_cases h : x.Duration > first.Duration
    · have hstep : pickLongest first (x :: xs) = pickLongest x xs := by
        simp [pickLongest, h]
      obtain ⟨l₁, l₂, heq, hl₁, hl₂⟩ := ih x
      have hmax : ∀ y ∈ x :: xs, y.Duration ≤ (pickLongest x xs).Duration := by
        intro y hy
        rw [heq] at hy
        rcases List.mem_append.mp hy with hy1 | hy2
        · exact le_of_lt (hl₁ y hy1)
        · rcases List.mem_cons.mp hy2 with rfl | hy3
          · exact le_refl _
          · exact hl₂ y hy3
      refine ⟨first :: l₁, l₂, ?_, ?_, ?_⟩
      · rw [hstep, List.cons_append, ← heq]
      · intro y hy
        rw [hstep]
        rcases List.mem_cons.mp hy with rfl | hy2
        · exact lt_of_lt_of_le h (hmax x (List.mem_cons_self _ _))
        · exact hl₁ y hy2
      · intro y hy
        rw [hstep]
        exact hl₂ y hy
    · have hstep : pickLongest first (x :: xs) = pickLongest first xs := by
        simp [pickLongest, h]
      obtain ⟨l₁, l₂, heq, hl₁, hl₂⟩ := ih first
      cases l₁ with
      | nil =>
        simp only [List.nil_append] at heq
        injection heq with h1 h2
        subst h2
        refine ⟨[], x :: xs, ?_, by simp, ?_⟩
        · simp only [List.nil_append, hstep, ← h1]
        · intro y hy
          rw [hstep, ← h1]
          rcases List.mem_cons.mp hy with rfl | hy2
          · exact le_of_not_lt h
          · rw [← h1] at hl₂
            exact hl₂ y hy2
      | cons a l₁' =>
        simp only [List.cons_append] at heq
        injection heq with h1 h2
        subst h1
        have hfirst : first.Duration < (pickLongest first xs).Duration :=
          hl₁ first (List.mem_cons_self _ _)
        refine ⟨first :: x :: l₁', l₂, ?_, ?_, ?_⟩
        · rw [hstep]
          conv_lhs => rw [h2]
          simp only [List.cons_append]
        · intro y hy
          rw [hstep]
          rcases List.mem_cons.mp hy with rfl | hy2
          · exact hfirst
          · rcases List.mem_cons.mp hy2 with rfl | hy3
            · exact lt_of_le_of_lt (le_of_not_lt h) hfirst
            · exact hl₁ y (List.mem_cons_of_mem _ hy3)
        · intro y hy
          rw [hstep]
          exact hl₂ y hy

/-- The shortest-scan returns the first session of minimal duration: the
input splits into a strictly-larger prefix, the returned session, and a
no-smaller suffix. -/
theorem pickShortest_split (rest : List Session) : ∀ (first : Session),
    ∃ l₁ l₂, first :: rest = l₁ ++ pickShortest first rest :: l₂
      ∧ (∀ x ∈ l₁, (pickShortest first rest).Duration < x.Duration)
      ∧ (∀ x ∈ l₂, (pickShortest first rest).Duration ≤ x.Duration) := by
  induction rest with
  | nil => intro first; exact ⟨[], [], rfl, by simp, by simp⟩
  | cons x xs ih =>
    intro first
    by_cases h : x.Duration < first.Duration
    · have hstep : pickShortest first (x :: xs) = pickShortest x xs := by
        simp [pickShortest, h]
      obtain ⟨l₁, l₂, heq, hl₁, hl₂⟩ := ih x
      have hmin : ∀ y ∈ x :: xs, (pickShortest x xs).Duration ≤ y.Duration := by
        intro y hy
        rw [heq] at hy
        rcases List.mem_append.mp hy with hy1 | hy2
        · exact le_of_lt (hl₁ y hy1)
        · rcases List.mem_cons.mp hy2 with rfl | hy3
          · exact le_refl _
          · exact hl₂ y hy3
      refine ⟨first :: l₁, l₂, ?_, ?_, ?_⟩
      · rw [hstep, List.cons_append, ← heq]
      · intro y hy
        rw [hstep]
        rcases List.mem_cons.mp hy with rfl | hy2
        · exact lt_of_le_of_lt (hmin x (List.mem_cons_self _ _)) h
        · exact hl₁ y hy2
      · intro y hy
        rw [hstep]
        exact hl₂ y hy
    · have hstep : pickShortest first (x :: xs) = pickShortest first xs := by
        simp [pickShortest, h]
      obtain ⟨l₁, l₂, heq, hl₁, hl₂⟩ := ih first
      cases l₁ with
      | nil =>
        simp only [List.nil_append] at heq
        injection heq with h1 h2
        subst h2
        refine ⟨[], x :: xs, ?_, by simp, ?_⟩
        · simp only [List.nil_append, hstep, ← h1]
        · intro y hy
          rw [hstep, ← h1]
          rcases List.mem_cons.mp hy with rfl | hy2
          · exact le_of_not_lt h
          · rw [← h1] at hl₂
            exact hl₂ y hy2
      | cons a l₁' =>
        simp only [List.cons_append] at heq
        injection heq with h1 h2
        subst h1
        have hfirst : (pickShortest first xs).Duration < first.Duration :=
          hl₁ first (List.mem_cons_self _ _)
        refine ⟨first :: x :: l₁', l₂, ?_, ?_, ?_⟩
        · rw [hstep]
          conv_lhs => rw [h2]
          simp only [List.cons_append]
        · intro y hy
          rw [hstep]
          rcases List.mem_cons.mp hy with rfl | hy2
          · exact hfirst
          · rcases List.mem_cons.mp hy2 with rfl | hy3
            · exact lt_of_lt_of_le hfirst (le_of_not_lt h)
            · exact hl₁ y (List.mem_cons_of_mem _ hy3)
        · intro y hy
          rw [hstep]
          exact hl₂ y hy

/-- C9: on a non-empty session list the summary computes total = sum of
durations, average = Go-truncating division of total by count, and the
longest/shortest sessions are the first sessions of maximal resp. minimal
duration (scanning left to right from the second element with the first as
initial candidate, later elements replacing only on strict inequality). -/
theorem claim_C9 (first : Session) (rest : List Session) :
    ∃ stats, displaySummary (first :: rest) = some stats
      ∧ stats.count = (first :: rest).length
      ∧ stats.totalDuration = ((first :: rest).map Session.Duration).sum
      ∧ stats.avgDuration =
          Int.tdiv stats.totalDuration (((first :: rest).length : Nat) : Int)
      ∧ (∃ l₁ l₂, first :: rest = l₁ ++ stats.longest :: l₂
          ∧ (∀ x ∈ l₁, x.Duration < stats.longest.Duration)
          ∧ (∀ x ∈ l₂, x.Duration ≤ stats.longest.Duration))
      ∧ (∃ l₁ l₂, first :: rest = l₁ ++ stats.shortest :: l₂
          ∧ (∀ x ∈ l₁, stats.shortest.Duration < x.Duration)
          ∧ (∀ x ∈ l₂, stats.shortest.Duration ≤ x.Duration)) := by
  refine ⟨_, rfl, rfl, ?_, ?_, ?_, ?_⟩
  · simpa using foldl_add_duration (first :: rest) 0
  · show Int.tdiv ((first :: rest).foldl (fun acc s => acc + s.Duration) 0) _ =
      Int.tdiv _ _
    rw [foldl_add_duration (first :: rest) 0, zero_add]
  · exact pickLongest_split rest first
  · exact pickShortest_split rest first

/-- A successful date match starts with `www ` and has a second space after
the ten date characters, so the input splits around two spaces. -/
theorem matchDateAt_spaces {cs m r : List Char} (h : matchDateAt cs = some (m, r)) :
    ∃ a b c, cs = a ++ ' ' :: (b ++ ' ' :: c) := by
  unfold matchDateAt at h
  split at h
  · rename_i w1 w2 w3 y1 y2 y3 y4 mo1 mo2 dy1 dy2 hh1 hh2 mi1 mi2 sc1 sc2 rest
    exact ⟨[w1, w2, w3], [y1, y2, y3, y4, '-', mo1, mo2, '-', dy1, dy2],
      hh1 :: hh2 :: ':' :: mi1 :: mi2 :: ':' :: sc1 :: sc2 :: ' ' :: rest, by simp⟩
  · simp at h

theorem findDatesAux_spaces : ∀ (fuel : Nat) (cs : List Char),
    findDatesAux fuel cs ≠ [] → ∃ a b c, cs = a ++ ' ' :: (b ++ ' ' :: c) := by
  intro fuel
  induction fuel with
  | zero =>
    intro cs h
    cases cs with
    | nil => simp [findDatesAux] at h
    | cons c cs' => simp [findDatesAux] at h
  | succ fuel ih =>
    intro cs h
    cases cs with
    | nil => simp [findDatesAux] at h
    | cons c cs' =>
      cases hm : matchDateAt (c :: cs') with
      | some pr =>
        obtain ⟨m, r⟩ := pr
        exact matchDateAt_spaces hm
      | none =>
        simp only [findDatesAux, hm] at h
        obtain ⟨a, b, c2, heq⟩ := ih cs' h
        exact ⟨c :: a, b, c2, by simp [heq]⟩

theorem breakAtSpace_space : ∀ (a d : List Char),
    ∃ f r, breakAtSpace (a ++ ' ' :: d) = (f, ' ' :: r)
      ∧ (r = d ∨ ∃ a2, r = a2 ++ ' ' :: d) := by
  intro a
  induction a with
  | nil => intro d; exact ⟨[], d, by simp [breakAtSpace], Or.inl rfl⟩
  | cons x a' ih =>
    intro d
    by_cases hx : x = ' '
    · subst hx
      exact ⟨[], a' ++ ' ' :: d, by simp [breakAtSpace], Or.inr ⟨a', rfl⟩⟩
    · obtain ⟨f, r, heq, hr⟩ := ih d
      refine ⟨x :: f, r, ?_, hr⟩
      simp [breakAtSpace, hx, heq]

theorem splitN_cons_space {cs f r : List Char} (n : Nat)
    (h : breakAtSpace cs = (f, ' ' :: r)) :
    splitN (n + 2) cs = f :: splitN (n + 1) r := by
  simp [splitN, h]

/-- A line containing two spaces splits into exactly three parts under
`SplitN(·, " ", 3)`. -/
theorem splitN_three {cs : List Char}
    (h : ∃ a b c, cs = a ++ ' ' :: (b ++ ' ' :: c)) :
    (splitN 3 cs).length = 3 := by
  obtain ⟨a, b, c, rfl⟩ := h
  obtain ⟨f, r, heq, hr⟩ := breakAtSpace_space a (b ++ ' ' :: c)
  have h3 : splitN 3 (a ++ ' ' :: (b ++ ' ' :: c)) = f :: splitN 2 r :=
    splitN_cons_space 1 heq
  have hr2 : ∃ x y, r = x ++ ' ' :: y := by
    rcases hr with rfl | ⟨a2, rfl⟩
    · exact ⟨b, c, rfl⟩
    · exact ⟨a2, b ++ ' ' :: c, rfl⟩
  obtain ⟨x, y, rfl⟩ := hr2
  obtain ⟨f2, r2, heq2, _⟩ := breakAtSpace_space x y
  have h2 : splitN 2 (x ++ ' ' :: y) = f2 :: splitN 1 r2 := splitN_cons_space 0 heq2
  rw [h3, h2]
  simp [splitN]

/-- C8: if the line yields at least two date phrases and both parse, the
extractor emits a Boot event at the start instant unconditionally, plus a
Shutdown event at the end instant iff that end is more than one minute before
`now`; a line yielding fewer than two phrases, or one whose first two phrases
do not both parse, contributes no events. -/
theorem claim_C8 (parse : String → Option Int) (now : Int) (line : String) :
    (∀ d0 d1 ds st et, findDates line = d0 :: d1 :: ds →
        parse d0 = some st → parse d1 = some et →
        processBootLine parse now line =
          { Timestamp := st, «Type» := "boot" } ::
            (if et < now - 60 then [{ Timestamp := et, «Type» := "shutdown" }]
             else []))
    ∧ ((findDates line).length < 2 → processBootLine parse now line = [])
    ∧ (∀ d0 d1 ds, findDates line = d0 :: d1 :: ds →
        parse d0 = none ∨ parse d1 = none →
        processBootLine parse now line = []) := by
  refine ⟨?_, ?_, ?_⟩
  · intro d0 d1 ds st et hf h0 h1
    have hne : findDates line ≠ [] := by rw [hf]; simp
    have hlen : (splitN 3 line.data).length = 3 :=
      splitN_three (findDatesAux_spaces line.data.length line.data hne)
    simp [processBootLine, hlen, hf, h0, h1]
  · intro hlt
    by_cases hp : (splitN 3 line.data).length < 3
    · simp [processBootLine, hp]
    · cases hd : findDates line with
      | nil => simp [processBootLine, hp, hd]
      | cons d0 tl =>
        cases tl with
        | nil => simp [processBootLine, hp, hd]
        | cons d1 tl2 =>
          rw [hd] at hlt
          simp at hlt
          omega
  · intro d0 d1 ds hf hnone
    by_cases hp : (splitN 3 line.data).length < 3
    · simp [processBootLine, hp]
    · rcases hnone with h0 | h1
      · simp [processBootLine, hp, hf, h0]
      · cases h0 : parse d0 with
        | none => simp [processBootLine, hp, hf, h0]
        | some st => simp [processBootLine, hp, hf, h0, h1]

theorem claim_C8_witness :
    processBootLine
      (fun s => if s = "Mon 2025-01-01 08:00:00 UTC" then some 28800
                else if s = "Mon 2025-01-01 18:00:00 UTC" then some 64800
                else none)
      64920 "-1 abc123def Mon 2025-01-01 08:00:00 UTC Mon 2025-01-01 18:00:00 UTC" =
      [{ Timestamp := 28800, «Type» := "boot" },
       { Timestamp := 64800, «Type» := "shutdown" }] := by
  have h := (claim_C8
      (fun s => if s = "Mon 2025-01-01 08:00:00 UTC" then some 28800
                else if s = "Mon 2025-01-01 18:00:00 UTC" then some 64800
                else none)
      64920 "-1 abc123def Mon 2025-01-01 08:00:00 UTC Mon 2025-01-01 18:00:00 UTC").1
      "Mon 2025-01-01 08:00:00 UTC" "Mon 2025-01-01 18:00:00 UTC" [] 28800 64800
      (by decide) (by decide) (by decide)
  rw [h]
  decide
